import Mathlib

/-!
Verification of the duplicate-detection and reconciliation core of the
Nextcloud Contact and Calendar Duplicate Remover
(`nextcloud_duplicate_remover.py`).

The Python source is shallowly embedded below.  Remote fetching, parsing and
logging are external collaborators: each embedded operation receives the
already-parsed records as explicit inputs and returns its would-be side
effects (deletions, creations) as explicit lists.  The fuzzy string-matching
dependency (`fuzzywuzzy.fuzz.ratio`) is an external library; it is modelled
as an abstract parameter `ratio : String -> String -> Int`, and the
embedding models the configuration in which the library is available
(`FUZZYWUZZY_AVAILABLE = True`), which is the code path the specification
describes.  Python string methods `lower` and `strip` and predicates are
modelled over `List Char` (ASCII case folding).
-/

/-- Python `str.lower` on a single character (ASCII fold; non-ASCII letters
are left unchanged by this model). -/
def lowerChar (c : Char) : Char :=
  if 'A' ≤ c ∧ c ≤ 'Z' then Char.ofNat (c.toNat + 32) else c

/-- Python `str.lower` over the characters of a string. -/
def pyLowerL (l : List Char) : List Char := l.map lowerChar

/-- Python `str.lower` as a string-to-string function. -/
def pyLower (s : String) : String := ⟨pyLowerL s.data⟩

/-- Python `str.strip`: drop leading and trailing whitespace. -/
def pyStrip (l : List Char) : List Char :=
  ((l.dropWhile Char.isWhitespace).reverse.dropWhile Char.isWhitespace).reverse

/-- Python substring test `needle in hay` for strings (contiguous infix). -/
def listContains (hay needle : List Char) : Bool :=
  if needle.isPrefixOf hay then true
  else match hay with
    | [] => false
    | _ :: t => listContains t needle

/-- Python `str.split(sep)` for a single-character separator (always returns
at least one piece, so `len(''.split(sep)) = 1` as in Python). -/
def splitOnChar (sep : Char) : List Char → List (List Char)
  | [] => [[]]
  | c :: rest =>
    let r := splitOnChar sep rest
    if c = sep then [] :: r
    else match r with
      | [] => [[c]]
      | p :: ps => (c :: p) :: ps

/-- Python `len(s.split(chr(10)))`, the line count used as a richness proxy. -/
def pyCountLines (s : String) : Nat := (splitOnChar '\n' s.data).length

/-- Abstract interface of `fuzzywuzzy.fuzz.ratio`: a similarity score for a
pair of strings.  The Python library returns an `int` in `[0, 100]`; the
embedding leaves the function abstract. -/
abbrev Ratio := String → String → Int

/-- A parsed contact as built by `get_all_contacts`: the `uid` of the CardDAV
object, the extracted full name (`""` when the vCard has none), the
lower-cased email list, the digit-normalized phone list, and the raw vCard
text. -/
structure Contact where
  uid : String
  full_name : String
  emails : List String
  phones : List String
  raw_data : String
deriving DecidableEq, Repr

/-- Embedding of `NextcloudContactManager._are_duplicates`: email-set
intersection, then phone-set intersection, then fuzzy full-name similarity
against the threshold (only when both stripped names are non-empty). -/
def are_duplicates (ratio : Ratio) (contact1 contact2 : Contact) (threshold : Int) : Bool :=
  let emails1 := contact1.emails
  let emails2 := contact2.emails
  if !emails1.isEmpty && !emails2.isEmpty && emails1.any (fun e => emails2.contains e) then
    true
  else
    let phones1 := contact1.phones
    let phones2 := contact2.phones
    if !phones1.isEmpty && !phones2.isEmpty && phones1.any (fun p => phones2.contains p) then
      true
    else
      let name1 := pyStrip contact1.full_name.data
      let name2 := pyStrip contact2.full_name.data
      if !name1.isEmpty && !name2.isEmpty then
        ratio ⟨pyLowerL name1⟩ ⟨pyLowerL name2⟩ ≥ threshold
      else
        false

/-- Inner loop of `find_duplicates` (and of `find_event_duplicates`): scan
the records after the anchor in input order, skipping records whose index is
already in `processed`, and collect every record the pairwise test judges a
duplicate of the anchor, marking its index processed. -/
def innerScan {α : Type} (dup : α → α → Bool) (anchor : α) :
    List (Nat × α) → List Nat → List (Nat × α) × List Nat
  | [], processed => ([], processed)
  | (j, c) :: rest, processed =>
    if j ∈ processed then innerScan dup anchor rest processed
    else if dup anchor c then
      let r := innerScan dup anchor rest (j :: processed)
      ((j, c) :: r.1, r.2)
    else innerScan dup anchor rest processed

/-- Outer loop of `find_duplicates`: each record not yet processed opens a
group anchored on it; the group is kept only if it gained at least one
member besides the anchor. -/
def outerScan {α : Type} (dup : α → α → Bool) :
    List (Nat × α) → List Nat → List (List (Nat × α))
  | [], _ => []
  | (i, c) :: rest, processed =>
    if i ∈ processed then outerScan dup rest processed
    else
      let r := innerScan dup c rest (i :: processed)
      let grp := (i, c) :: r.1
      if 1 < grp.length then grp :: outerScan dup rest r.2
      else outerScan dup rest r.2

/-- Variant of `outerScan` that also keeps the size-one groups the source
discards; used to reason about the run (every record belongs to exactly one
group of this full partition). -/
def outerScanAll {α : Type} (dup : α → α → Bool) :
    List (Nat × α) → List Nat → List (List (Nat × α))
  | [], _ => []
  | (i, c) :: rest, processed =>
    if i ∈ processed then outerScanAll dup rest processed
    else
      let r := innerScan dup c rest (i :: processed)
      ((i, c) :: r.1) :: outerScanAll dup rest r.2

/-- Embedding of `NextcloudContactManager.find_duplicates` (the path with
the fuzzy library available), on index-tagged records: greedy star
clustering driven by `_are_duplicates`. -/
def find_duplicates_enum (ratio : Ratio) (contacts : List Contact)
    (similarity_threshold : Int := 85) : List (List (Nat × Contact)) :=
  outerScan (fun c1 c2 => are_duplicates ratio c1 c2 similarity_threshold) contacts.enum []

/-- Embedding of `NextcloudContactManager.find_duplicates`: the returned
groups as lists of contacts, in group-creation order (the Python dict keyed
`group_i` preserves insertion order). -/
def find_duplicates (ratio : Ratio) (contacts : List Contact)
    (similarity_threshold : Int := 85) : List (List Contact) :=
  (find_duplicates_enum ratio contacts similarity_threshold).map (fun g => g.map Prod.snd)

/-- Stable descending insertion: an element goes before the first element
whose key is not larger.  This realizes the head-relevant behavior of
Python `list.sort(key=..., reverse=True)`, which is a stable sort. -/
def insertDesc {κ α : Type} [LinearOrder κ] (x : κ × α) : List (κ × α) → List (κ × α)
  | [] => [x]
  | y :: ys => if y.1 ≤ x.1 then x :: y :: ys else y :: insertDesc x ys

/-- Stable descending sort of scored records (Python `sort(reverse=True)`). -/
def sortDesc {κ α : Type} [LinearOrder κ] : List (κ × α) → List (κ × α)
  | [] => []
  | x :: xs => insertDesc x (sortDesc xs)

/-- Leftmost maximal element of a scored list (`none` on the empty list);
the head of the stable descending sort. -/
def maxLeft {κ α : Type} [LinearOrder κ] : List (κ × α) → Option (κ × α)
  | [] => none
  | x :: xs =>
    match maxLeft xs with
    | none => some x
    | some m => some (if m.1 ≤ x.1 then x else m)

/-- Scoring inside `choose_best_contact`: two points per email and per
phone, five points for a present full name, one point per line of the raw
vCard text. -/
def contactScore (c : Contact) : Nat :=
  (if !c.emails.isEmpty then c.emails.length * 2 else 0)
  + (if !c.phones.isEmpty then c.phones.length * 2 else 0)
  + (if !c.full_name.data.isEmpty then 5 else 0)
  + pyCountLines c.raw_data * 1

/-- Embedding of `NextcloudContactManager.choose_best_contact`: a singleton
group returns its sole member, otherwise the scored list is stably sorted in
descending order and the first element is returned (`none` only on the empty
list, on which the source would raise). -/
def choose_best_contact (duplicates : List Contact) : Option Contact :=
  match duplicates with
  | [] => none
  | [c] => some c
  | _ => (sortDesc (duplicates.map (fun c => (contactScore c, c)))).head?.map Prod.snd

/-- A Python `datetime.date` or `datetime.datetime` value: only the fields
the source reads are modelled. -/
structure PyDateObj where
  year : Nat
  month : Nat
  day : Nat
deriving DecidableEq, Repr

/-- The value found in an event record under `start_date`: either a parsed
date object or a plain string. -/
inductive PyDate
  | obj (d : PyDateObj)
  | str (s : String)
deriving DecidableEq, Repr

/-- A parsed calendar event as built by `get_all_events`.  `parsed_props`
abstracts the count of attributes the source obtains by `dir()`
introspection of the parsed `vevent` object (`none` when the event has no
parsed `vevent`). -/
structure Event where
  uid : String
  title : String
  description : String
  start_date : Option PyDate
  raw_data : String
  parsed_props : Option Nat
deriving DecidableEq, Repr

/-- Two-digit zero padding, Python `%02d` for the values in range. -/
def pad2 (n : Nat) : String := if n < 10 then "0" ++ toString n else toString n

/-- Four-digit zero padding for years, as in `str(datetime.date(...))`. -/
def pad4 (n : Nat) : String :=
  if n < 10 then "000" ++ toString n
  else if n < 100 then "00" ++ toString n
  else if n < 1000 then "0" ++ toString n
  else toString n

/-- The day-precision key the source computes from a start date when
comparing events: for a date object, `str(...)` starts with the ISO date;
for a plain string, the first ten characters. -/
def dateKey : PyDate → String
  | .obj d => pad4 d.year ++ "-" ++ pad2 d.month ++ "-" ++ pad2 d.day
  | .str s => ⟨s.data.take 10⟩

/-- Embedding of `NextcloudCalendarManager._are_events_duplicates`: equal
lower-cased titles with equal day keys, or (for titles longer than three
characters) fuzzy-similar titles above the threshold with equal day keys. -/
def are_events_duplicates (ratio : Ratio) (event1 event2 : Event) (threshold : Int) : Bool :=
  let title1 := pyStrip event1.title.data
  let title2 := pyStrip event2.title.data
  if !title1.isEmpty && !title2.isEmpty then
    if pyLowerL title1 = pyLowerL title2 then
      match event1.start_date, event2.start_date with
      | some d1, some d2 => dateKey d1 = dateKey d2
      | _, _ => false
    else if title1.length > 3 && title2.length > 3
        && ratio ⟨pyLowerL title1⟩ ⟨pyLowerL title2⟩ ≥ threshold then
      match event1.start_date, event2.start_date with
      | some d1, some d2 => dateKey d1 = dateKey d2
      | _, _ => false
    else false
  else false

/-- Embedding of `find_event_duplicates` on index-tagged events: the same
greedy star clustering as for contacts, driven by the event pairwise test. -/
def find_event_duplicates_enum (ratio : Ratio) (events : List Event)
    (similarity_threshold : Int := 85) : List (List (Nat × Event)) :=
  outerScan (fun e1 e2 => are_events_duplicates ratio e1 e2 similarity_threshold) events.enum []

/-- Embedding of `NextcloudCalendarManager.find_event_duplicates`. -/
def find_event_duplicates (ratio : Ratio) (events : List Event)
    (similarity_threshold : Int := 85) : List (List Event) :=
  (find_event_duplicates_enum ratio events similarity_threshold).map (fun g => g.map Prod.snd)

/-- Scoring inside `choose_best_event`; the Python float weights are
modelled exactly as rationals. -/
def eventScore (e : Event) : ℚ :=
  (if !e.description.data.isEmpty then (e.description.length : ℚ) * (1 / 10) else 0)
  + (if !e.title.data.isEmpty then (e.title.length : ℚ) * (1 / 5) else 0)
  + (pyCountLines e.raw_data : ℚ) * (1 / 2)
  + (match e.parsed_props with
     | some n => (n : ℚ) * (3 / 10)
     | none => 0)

/-- Embedding of `NextcloudCalendarManager.choose_best_event`. -/
def choose_best_event (duplicates : List Event) : Option Event :=
  match duplicates with
  | [] => none
  | [e] => some e
  | _ => (sortDesc (duplicates.map (fun e => (eventScore e, e)))).head?.map Prod.snd

/-- Embedding of `NextcloudContactManager.remove_duplicates`.  The remote
fetch is an input; the would-be remote deletions are returned as the second
component (empty in dry-run mode), with `delete_contact` modelled as
succeeding.  The first component is the returned pair
(duplicates found, contacts deleted). -/
def remove_duplicates (ratio : Ratio) (contacts : List Contact) (dry_run : Bool := true) :
    (Nat × Nat) × List Contact :=
  if contacts.isEmpty then ((0, 0), [])
  else
    let duplicate_groups := find_duplicates ratio contacts
    if duplicate_groups.isEmpty then ((0, 0), [])
    else
      let total_duplicates := (duplicate_groups.map List.length).sum
      if dry_run then ((total_duplicates, 0), [])
      else
        let deleted := duplicate_groups.flatMap (fun g =>
          g.filter (fun c => !(decide (choose_best_contact g = some c))))
        ((total_duplicates, deleted.length), deleted)

/-- The record set remaining on the server after a real (non-dry-run)
deduplication run: the input minus the records `remove_duplicates` deleted,
in the original order. -/
def applyDedup (ratio : Ratio) (contacts : List Contact) : List Contact :=
  contacts.filter (fun c => !((remove_duplicates ratio contacts false).2.contains c))

/-- Embedding of `NextcloudCalendarManager.remove_event_duplicates`; the
events of the selected calendars are an input, deletions are returned as
effects. -/
def remove_event_duplicates (ratio : Ratio) (events : List Event) (dry_run : Bool := true) :
    (Nat × Nat) × List Event :=
  if events.isEmpty then ((0, 0), [])
  else
    let duplicate_groups := find_event_duplicates ratio events
    if duplicate_groups.isEmpty then ((0, 0), [])
    else
      let total_duplicates := (duplicate_groups.map List.length).sum
      if dry_run then ((total_duplicates, 0), [])
      else
        let deleted := duplicate_groups.flatMap (fun g =>
          g.filter (fun e => !(decide (choose_best_event g = some e))))
        ((total_duplicates, deleted.length), deleted)

/-- Keyword set marking an event title as birthday-typed
(`_is_birthday_event`). -/
def birthday_keywords : List String :=
  ["anniversaire", "birthday", "naissance", "date de naissance",
   "bday", "né le", "née le", "born on", "anniversary"]

/-- Keyword set excluding an event title from birthday semantics
(`_is_birthday_event`). -/
def non_birthday_keywords : List String :=
  ["réunion", "meeting", "rendez-vous", "rdv", "déjeuner", "dîner",
   "restaurant", "coupole", "déménagement", "visite", "leçon",
   "championnat", "résilier", "ramener", "manette", "cheveux",
   "barbe", "circulation", "datascientest", "surprise", "fête"]

/-- Substring test of one keyword against the lower-cased stripped title. -/
def containsKeyword (title_lower : List Char) (kw : String) : Bool :=
  listContains title_lower kw.data

/-- Embedding of `NextcloudCalendarManager._is_birthday_event`: any
exclusion keyword in the lower-cased title forces a negative answer,
otherwise the answer is whether some inclusion keyword occurs. -/
def is_birthday_event (event_title : String) : Bool :=
  let title_lower := pyStrip (pyLowerL event_title.data)
  if non_birthday_keywords.any (containsKeyword title_lower) then false
  else birthday_keywords.any (containsKeyword title_lower)

/-- Leading phrases stripped from a birthday event title to obtain the
candidate contact name. -/
def prefixes_to_remove : List String :=
  ["anniversaire de ", "anniversary of ", "birthday of ",
   "anniversaire ", "birthday ", "anniversary ", "date de naissance : "]

/-- Strip the first matching leading phrase (then strip whitespace), as in
the `break` loop of the source. -/
def stripFirstMatching : List String → List Char → List Char
  | [], name => name
  | p :: ps, name =>
    if p.data.isPrefixOf name then pyStrip (name.drop p.data.length)
    else stripFirstMatching ps name

/-- Embedding of
`NextcloudCalendarManager._extract_contact_name_from_birthday_event`. -/
def extract_contact_name_from_birthday_event (event_title : String) : String :=
  ⟨stripFirstMatching prefixes_to_remove (pyStrip (pyLowerL event_title.data))⟩

/-- Character cleaning in `_names_are_similar`: keep alphanumeric and
whitespace characters, lower-case them, strip the ends. -/
def cleanName (s : String) : List Char :=
  pyStrip ((s.data.filter (fun c => c.isAlphanum || c.isWhitespace)).map lowerChar)

/-- Embedding of `NextcloudCalendarManager._names_are_similar` (fuzzy
library available): cleaned-name similarity of at least 80. -/
def names_are_similar (ratio : Ratio) (name1 name2 : String) : Bool :=
  ratio ⟨cleanName name1⟩ ⟨cleanName name2⟩ ≥ 80

/-- Embedding of `NextcloudCalendarManager._format_date_for_comparison`:
month-day key `MM-DD` of a start date, or `""` when it cannot be
extracted. -/
def format_date_for_comparison : Option PyDate → String
  | none => ""
  | some (.obj d) => pad2 d.month ++ "-" ++ pad2 d.day
  | some (.str s) => if s.length ≥ 10 then ⟨(s.data.drop 5).take 5⟩ else ""

/-- The dictionary `contacts_dict` of `_match_birthdays_and_events`, keyed
by lower-cased contact name: as in a Python dict comprehension, a repeated
key keeps its first position and the value of its last occurrence.  Entries
are `(key, original name, MM-DD)`. -/
def contactsDict (contacts_with_birthdays : List (String × String)) :
    List (String × String × String) :=
  contacts_with_birthdays.foldl (fun acc nd =>
    let key := pyLower nd.1
    if acc.any (fun kv => kv.1 == key) then
      acc.map (fun kv => if kv.1 == key then (key, nd.1, nd.2) else kv)
    else acc ++ [(key, nd.1, nd.2)]) []

/-- The candidate contact name the matcher extracts from an event title
(the source passes the lower-cased title). -/
def event_candidate_name (event : Event) : String :=
  extract_contact_name_from_birthday_event (pyLower event.title)

/-- Name comparison of the match loop: the lower-cased candidate is a
substring of the entry key or conversely, or the two are fuzzy-similar. -/
def nameMatches (ratio : Ratio) (contact_name_from_event contact_name_lower : String) : Bool :=
  listContains contact_name_lower.data (pyLower contact_name_from_event).data
  || listContains (pyLower contact_name_from_event).data contact_name_lower.data
  || names_are_similar ratio contact_name_from_event contact_name_lower

/-- Full per-entry test of the match loop: the name comparison, then the
date gate — the event day key must equal the entry day key, unless the event
day key cannot be extracted, in which case the name alone suffices. -/
def entryMatches (ratio : Ratio) (event_date : Option PyDate)
    (contact_name_from_event : String) (kv : String × String × String) : Bool :=
  nameMatches ratio contact_name_from_event kv.1 &&
    (let event_date_str := format_date_for_comparison event_date
     if event_date_str.data.isEmpty then true else event_date_str == kv.2.2)

/-- Whether the match loop of `_match_birthdays_and_events` finds some
dictionary entry for this event (the loop breaks at the first hit; for the
event classification only existence matters). -/
def event_is_matched (ratio : Ratio) (dict : List (String × String × String))
    (event : Event) : Bool :=
  dict.any (entryMatches ratio event.start_date (event_candidate_name event))

/-- Embedding of `NextcloudCalendarManager._match_birthdays_and_events`.
The source classifies the events in one pass, appending each to exactly one
of the three event buckets in input order; this is expressed by filters.
The matched contact names are collected by re-running the name comparison
(without the date gate, as in the source) and taking the first hit. -/
def match_birthdays_and_events (ratio : Ratio)
    (contacts_with_birthdays : List (String × String)) (events : List Event) :
    List Event × List Event × List Event × List (String × String) :=
  let dict := contactsDict contacts_with_birthdays
  let birthday_events := events.filter (fun e => is_birthday_event e.title)
  let matched_events := birthday_events.filter (fun e => event_is_matched ratio dict e)
  let orphan_birthday_events := birthday_events.filter (fun e => !event_is_matched ratio dict e)
  let non_birthday_events := events.filter (fun e => !is_birthday_event e.title)
  let matched_names := matched_events.foldl (fun acc e =>
    match dict.find? (fun kv => nameMatches ratio (event_candidate_name e) kv.1) with
    | some kv => acc ++ [kv.2.1]
    | none => acc) []
  let missing_birthdays :=
    contacts_with_birthdays.filter (fun nd => !(matched_names.contains nd.1))
  (matched_events, orphan_birthday_events, non_birthday_events, missing_birthdays)

/-- Embedding of `NextcloudCalendarManager.sync_birthday_calendar`: inputs
are the birthday entries extracted from the contacts and the events of the
birthday calendar; the returned effects are the deleted orphan events and
the created birthday entries (both empty in dry-run mode), with the deletion
and creation collaborators modelled as succeeding.  The first component is
the returned triple (orphans found, deleted, created). -/
def sync_birthday_calendar (ratio : Ratio)
    (contacts_with_birthdays : List (String × String)) (birthday_events : List Event)
    (dry_run : Bool := true) :
    (Nat × Nat × Nat) × (List Event × List (String × String)) :=
  if contacts_with_birthdays.isEmpty then ((0, 0, 0), ([], []))
  else if birthday_events.isEmpty then ((0, 0, 0), ([], []))
  else
    let r := match_birthdays_and_events ratio contacts_with_birthdays birthday_events
    let orphan_birthday_events := r.2.1
    let missing_birthdays := r.2.2.2
    if dry_run then ((orphan_birthday_events.length, 0, 0), ([], []))
    else
      ((orphan_birthday_events.length, orphan_birthday_events.length, missing_birthdays.length),
       (orphan_birthday_events, missing_birthdays))

/-- The `api`-mode command-line arguments of `main` that are relevant to
contact deduplication.  `threshold` is parsed by `argparse` as an arbitrary
integer (documented as 0 to 100 but never validated). -/
structure ApiArgs where
  type_ : String
  calendar : Option String
  sync_birthdays : Bool
  delete : Bool
  threshold : Int
deriving Repr

/-- Embedding of the `--type contacts` path of `main` (libraries available,
connection succeeding, fetched contacts given as input): after the two
argument validations, `remove_duplicates` runs with `dry_run = not delete`.
No branch of `main` reads `threshold`. -/
def main_api_contacts (ratio : Ratio) (args : ApiArgs) (contacts : List Contact) :
    Except String ((Nat × Nat) × List Contact) :=
  if args.calendar.isSome && !(args.type_ == "calendars") then
    .error "--calendar ne peut etre utilise que avec --type calendars"
  else if args.sync_birthdays && !(args.type_ == "calendars") then
    .error "--sync-birthdays ne peut etre utilise que avec --type calendars"
  else
    .ok (remove_duplicates ratio contacts (!args.delete))

section ScanLemmas

variable {α : Type} (dup : α → α → Bool) (a : α)

/-- An index is processed after the inner scan exactly when it was processed
before or belongs to a collected member. -/
theorem innerScan_processed_iff (l : List (Nat × α)) :
    ∀ (pr : List Nat) (k : Nat),
      k ∈ (innerScan dup a l pr).2 ↔ k ∈ pr ∨ ∃ p ∈ (innerScan dup a l pr).1, p.1 = k := by
  induction l with
  | nil => intro pr k; simp [innerScan]
  | cons hd rest ih =>
    intro pr k
    obtain ⟨j, c⟩ := hd
    by_cases hj : j ∈ pr
    · simp only [innerScan, if_pos hj]
      exact ih pr k
    · by_cases hd2 : dup a c = true
      · simp only [innerScan, if_neg hj, if_pos hd2]
        rw [ih (j :: pr) k]
        simp only [List.mem_cons]
        constructor
        · rintro (h | h)
          · rcases h with rfl | h
            · exact Or.inr ⟨(k, c), Or.inl rfl, rfl⟩
            · exact Or.inl h
          · obtain ⟨p, hp, hpk⟩ := h
            exact Or.inr ⟨p, Or.inr hp, hpk⟩
        · rintro (h | h)
          · exact Or.inl (Or.inr h)
          · obtain ⟨p, hp, hpk⟩ := h
            rcases hp with rfl | hp
            · exact Or.inl (Or.inl hpk.symm)
            · exact Or.inr ⟨p, hp, hpk⟩
      · simp only [innerScan, if_neg hj, if_neg hd2]
        exact ih pr k

/-- The processed set only grows across the inner scan. -/
theorem innerScan_processed_mono (l : List (Nat × α)) (pr : List Nat) (k : Nat)
    (h : k ∈ pr) : k ∈ (innerScan dup a l pr).2 :=
  (innerScan_processed_iff dup a l pr k).mpr (Or.inl h)

/-- Members collected by the inner scan come from the scanned list and were
unprocessed at entry. -/
theorem innerScan_mem (l : List (Nat × α)) :
    ∀ (pr : List Nat) (p : Nat × α),
      p ∈ (innerScan dup a l pr).1 → p ∈ l ∧ p.1 ∉ pr := by
  induction l with
  | nil => intro pr p h; simp [innerScan] at h
  | cons hd rest ih =>
    intro pr p h
    obtain ⟨j, c⟩ := hd
    by_cases hj : j ∈ pr
    · simp only [innerScan, if_pos hj] at h
      obtain ⟨h1, h2⟩ := ih pr p h
      exact ⟨List.mem_cons_of_mem _ h1, h2⟩
    · by_cases hd2 : dup a c = true
      · simp only [innerScan, if_neg hj, if_pos hd2, List.mem_cons] at h
        rcases h with rfl | h
        · exact ⟨List.mem_cons_self _ _, hj⟩
        · obtain ⟨h1, h2⟩ := ih (j :: pr) p h
          refine ⟨List.mem_cons_of_mem _ h1, fun hk => h2 (List.mem_cons_of_mem _ hk)⟩
      · simp only [innerScan, if_neg hj, if_neg hd2] at h
        obtain ⟨h1, h2⟩ := ih pr p h
        exact ⟨List.mem_cons_of_mem _ h1, h2⟩

/-- Every member collected by the inner scan is judged a duplicate of the
anchor. -/
theorem innerScan_taken_dup (l : List (Nat × α)) :
    ∀ (pr : List Nat) (p : Nat × α),
      p ∈ (innerScan dup a l pr).1 → dup a p.2 = true := by
  induction l with
  | nil => intro pr p h; simp [innerScan] at h
  | cons hd rest ih =>
    intro pr p h
    obtain ⟨j, c⟩ := hd
    by_cases hj : j ∈ pr
    · simp only [innerScan, if_pos hj] at h
      exact ih pr p h
    · by_cases hd2 : dup a c = true
      · simp only [innerScan, if_neg hj, if_pos hd2, List.mem_cons] at h
        rcases h with rfl | h
        · exact hd2
        · exact ih (j :: pr) p h
      · simp only [innerScan, if_neg hj, if_neg hd2] at h
        exact ih pr p h

/-- The indices of the members collected by the inner scan are distinct. -/
theorem innerScan_idx_nodup (l : List (Nat × α)) :
    ∀ (pr : List Nat), ((innerScan dup a l pr).1.map Prod.fst).Nodup := by
  induction l with
  | nil => intro pr; simp [innerScan]
  | cons hd rest ih =>
    intro pr
    obtain ⟨j, c⟩ := hd
    by_cases hj : j ∈ pr
    · simp only [innerScan, if_pos hj]; exact ih pr
    · by_cases hd2 : dup a c = true
      · simp only [innerScan, if_neg hj, if_pos hd2, List.map_cons, List.nodup_cons]
        refine ⟨?_, ih (j :: pr)⟩
        intro hjin
        obtain ⟨p, hp, hpj⟩ := List.mem_map.mp hjin
        have := (innerScan_mem dup a rest (j :: pr) p hp).2
        exact this (hpj ▸ List.mem_cons_self _ _)
      · simp only [innerScan, if_neg hj, if_neg hd2]; exact ih pr

/-- A scanned record whose index is still unprocessed after the inner scan
was compared against the anchor and rejected. -/
theorem innerScan_not_taken (l : List (Nat × α)) :
    ∀ (pr : List Nat) (p : Nat × α),
      p ∈ l → p.1 ∉ (innerScan dup a l pr).2 → dup a p.2 = false := by
  induction l with
  | nil => intro pr p h; simp at h
  | cons hd rest ih =>
    intro pr p hp hnp
    obtain ⟨j, c⟩ := hd
    by_cases hj : j ∈ pr
    · simp only [innerScan, if_pos hj] at hnp ⊢
      rcases List.mem_cons.mp hp with rfl | hp'
      · exact absurd (innerScan_processed_mono dup a rest pr _ hj) hnp
      · exact ih pr p hp' hnp
    · by_cases hd2 : dup a c = true
      · simp only [innerScan, if_neg hj, if_pos hd2] at hnp ⊢
        rcases List.mem_cons.mp hp with rfl | hp'
        · exact absurd
            (innerScan_processed_mono dup a rest (j :: pr) _ (List.mem_cons_self _ _)) hnp
        · exact ih (j :: pr) p hp' hnp
      · simp only [innerScan, if_neg hj, if_neg hd2] at hnp ⊢
        rcases List.mem_cons.mp hp with rfl | hp'
        · exact Bool.eq_false_iff.mpr hd2
        · exact ih pr p hp' hnp

end ScanLemmas

section OuterLemmas

variable {α : Type} (dup : α → α → Bool)

/-- Every group of the full partition is a nonempty list headed by its
anchor, whose elements come from the scanned list, were unprocessed at
entry, and (except the anchor itself) are judged duplicates of the anchor. -/
theorem outerScanAll_group_shape (l : List (Nat × α)) :
    ∀ (pr : List Nat) (g : List (Nat × α)), g ∈ outerScanAll dup l pr →
      ∃ p t, g = p :: t ∧ p ∈ l ∧ p.1 ∉ pr ∧
        ∀ m ∈ t, m ∈ l ∧ m.1 ∉ pr ∧ dup p.2 m.2 = true := by
  induction l with
  | nil => intro pr g h; simp [outerScanAll] at h
  | cons hd rest ih =>
    intro pr g hg
    obtain ⟨i, c⟩ := hd
    by_cases hi : i ∈ pr
    · simp only [outerScanAll, if_pos hi] at hg
      obtain ⟨p, t, h1, h2, h3, h4⟩ := ih pr g hg
      exact ⟨p, t, h1, List.mem_cons_of_mem _ h2, h3,
        fun m hm => ⟨List.mem_cons_of_mem _ (h4 m hm).1, (h4 m hm).2.1, (h4 m hm).2.2⟩⟩
    · simp only [outerScanAll, if_neg hi, List.mem_cons] at hg
      rcases hg with rfl | hg
      · refine ⟨(i, c), (innerScan dup c rest (i :: pr)).1, rfl,
          List.mem_cons_self _ _, hi, fun m hm => ?_⟩
        obtain ⟨h1, h2⟩ := innerScan_mem dup c rest (i :: pr) m hm
        exact ⟨List.mem_cons_of_mem _ h1, fun hk => h2 (List.mem_cons_of_mem _ hk),
          innerScan_taken_dup dup c rest (i :: pr) m hm⟩
      · obtain ⟨p, t, h1, h2, h3, h4⟩ := ih _ g hg
        have hsub : ∀ k : Nat, k ∈ pr → k ∈ (innerScan dup c rest (i :: pr)).2 :=
          fun k hk => innerScan_processed_mono dup c rest (i :: pr) k (List.mem_cons_of_mem _ hk)
        exact ⟨p, t, h1, List.mem_cons_of_mem _ h2, fun hk => h3 (hsub _ hk),
          fun m hm => ⟨List.mem_cons_of_mem _ (h4 m hm).1,
            fun hk => (h4 m hm).2.1 (hsub _ hk), (h4 m hm).2.2⟩⟩

/-- The concatenation of the index lists of the full partition has no
repeated index. -/
theorem outerScanAll_flat_nodup (l : List (Nat × α)) :
    ∀ (pr : List Nat),
      (((outerScanAll dup l pr).map (fun g => g.map Prod.fst)).flatten).Nodup := by
  induction l with
  | nil => intro pr; simp [outerScanAll]
  | cons hd rest ih =>
    intro pr
    obtain ⟨i, c⟩ := hd
    by_cases hi : i ∈ pr
    · simp only [outerScanAll, if_pos hi]; exact ih pr
    · simp only [outerScanAll, if_neg hi, List.map_cons, List.flatten_cons]
      rw [List.nodup_append]
      refine ⟨?_, ih _, ?_⟩
      · simp only [List.map_cons, List.nodup_cons]
        refine ⟨?_, innerScan_idx_nodup dup c rest (i :: pr)⟩
        intro hiin
        obtain ⟨p, hp, hpi⟩ := List.mem_map.mp hiin
        exact (innerScan_mem dup c rest (i :: pr) p hp).2 (hpi ▸ List.mem_cons_self _ _)
      · intro k hk hk2
        obtain ⟨gidx, hgidx, hkg⟩ := List.mem_flatten.mp hk2
        obtain ⟨g, hg, rfl⟩ := List.mem_map.mp hgidx
        obtain ⟨p, hp, rfl⟩ := List.mem_map.mp hkg
        obtain ⟨q, t, h1, h2, h3, h4⟩ := outerScanAll_group_shape dup rest _ g hg
        have hpin : p.1 ∉ (innerScan dup c rest (i :: pr)).2 := by
          subst h1
          rcases List.mem_cons.mp hp with rfl | hpt
          · exact h3
          · exact (h4 p hpt).2.1
        apply hpin
        simp only [List.map_cons, List.mem_cons] at hk
        rcases hk with hk | hk
        · rw [hk]
          exact innerScan_processed_mono dup c rest (i :: pr) _ (List.mem_cons_self _ _)
        · obtain ⟨q', hq', hq'i⟩ := List.mem_map.mp hk
          rw [← hq'i]
          exact (innerScan_processed_iff dup c rest (i :: pr) q'.1).mpr
            (Or.inr ⟨q', hq', rfl⟩)

/-- Every unprocessed record of the scanned list lands in some group of the
full partition (indices of the scanned list assumed distinct). -/
theorem outerScanAll_cover (l : List (Nat × α)) :
    ∀ (pr : List Nat), (l.map Prod.fst).Nodup →
      ∀ p ∈ l, p.1 ∉ pr → ∃ g ∈ outerScanAll dup l pr, p ∈ g := by
  induction l with
  | nil => intro pr _ p h; simp at h
  | cons hd rest ih =>
    intro pr hnd p hp hnp
    obtain ⟨i, c⟩ := hd
    simp only [List.map_cons, List.nodup_cons] at hnd
    by_cases hi : i ∈ pr
    · simp only [outerScanAll, if_pos hi]
      rcases List.mem_cons.mp hp with rfl | hp'
      · exact absurd hi hnp
      · exact ih pr hnd.2 p hp' hnp
    · simp only [outerScanAll, if_neg hi]
      rcases List.mem_cons.mp hp with rfl | hp'
      · exact ⟨_, List.mem_cons_self _ _, List.mem_cons_self _ _⟩
      · by_cases hps : p.1 ∈ (innerScan dup c rest (i :: pr)).2
        · rcases (innerScan_processed_iff dup c rest (i :: pr) p.1).mp hps with hin | hin
          · rcases List.mem_cons.mp hin with heq | hin'
            · exfalso
              apply hnd.1
              exact heq ▸ List.mem_map.mpr ⟨p, hp', rfl⟩
            · exact absurd hin' hnp
          · obtain ⟨q, hq, hqp⟩ := hin
            have hqrest := (innerScan_mem dup c rest (i :: pr) q hq).1
            have : p = q := by
              have hinj := List.inj_on_of_nodup_map hnd.2
              exact (hinj hqrest hp' hqp).symm
            refine ⟨_, List.mem_cons_self _ _, ?_⟩
            rw [this]
            exact List.mem_cons_of_mem _ hq
        · obtain ⟨g, hg, hpg⟩ := ih _ hnd.2 p hp' hps
          exact ⟨g, List.mem_cons_of_mem _ hg, hpg⟩

/-- Anchors of distinct groups of the full partition were compared (when the
later one was scanned by the earlier one) and judged non-duplicates. -/
theorem outerScanAll_anchors_pairwise (l : List (Nat × α)) :
    ∀ (pr : List Nat),
      (outerScanAll dup l pr).Pairwise
        (fun g g' => ∀ p p', g.head? = some p → g'.head? = some p' →
          dup p.2 p'.2 = false) := by
  induction l with
  | nil => intro pr; simp [outerScanAll]
  | cons hd rest ih =>
    intro pr
    obtain ⟨i, c⟩ := hd
    by_cases hi : i ∈ pr
    · simp only [outerScanAll, if_pos hi]; exact ih pr
    · simp only [outerScanAll, if_neg hi]
      rw [List.pairwise_cons]
      refine ⟨?_, ih _⟩
      intro g' hg' p p' hp hp'
      simp only [List.head?_cons, Option.some.injEq] at hp
      obtain ⟨q, t, h1, h2, h3, _⟩ := outerScanAll_group_shape dup rest _ g' hg'
      have hq : p' = q := by
        subst h1
        simp only [List.head?_cons, Option.some.injEq] at hp'
        exact hp'.symm
      subst hq
      rw [← hp]
      exact innerScan_not_taken dup c rest (i :: pr) p' h2 h3

/-- The groups the source returns are exactly the groups of the full
partition that have more than one member. -/
theorem outerScan_eq_filter (l : List (Nat × α)) :
    ∀ (pr : List Nat),
      outerScan dup l pr
        = (outerScanAll dup l pr).filter (fun g => decide (1 < g.length)) := by
  induction l with
  | nil => intro pr; simp [outerScan, outerScanAll]
  | cons hd rest ih =>
    intro pr
    obtain ⟨i, c⟩ := hd
    by_cases hi : i ∈ pr
    · simp only [outerScan, outerScanAll, if_pos hi]; exact ih pr
    · simp only [outerScan, outerScanAll, if_neg hi]
      by_cases hlen : 1 < ((i, c) :: (innerScan dup c rest (i :: pr)).1).length
      · rw [if_pos hlen, List.filter_cons, if_pos (by simpa using hlen)]
        rw [ih]
      · rw [if_neg hlen, List.filter_cons, if_neg (by simpa using hlen)]
        exact ih _

end OuterLemmas

/-- Concatenation is monotone with respect to the sublist relation. -/
theorem sublist_flatten_of_sublist {α : Type} :
    ∀ {L1 L2 : List (List α)}, L1.Sublist L2 → L1.flatten.Sublist L2.flatten := by
  intro L1 L2 h
  induction h with
  | slnil => exact List.Sublist.refl _
  | cons g _ ihsub =>
    rw [List.flatten_cons]
    exact ihsub.trans (List.sublist_append_right _ _)
  | cons₂ g _ ihsub =>
    rw [List.flatten_cons, List.flatten_cons]
    exact ihsub.append_left _

/-- C1: the groups returned by `find_duplicates` are pairwise disjoint and
no input record occurrence appears in two returned groups: the concatenated
index lists of the groups have no repeats, every group element is an
(index, record) pair of the input, groups are pairwise index-disjoint, and
`find_duplicates` is the record-level projection of this indexed run — so
every input record is a member of exactly one returned group or of none (a
record matching nothing stays out of the output, a discarded singleton). -/
theorem C1_partition (ratio : Ratio) (threshold : Int) (contacts : List Contact) :
    (((find_duplicates_enum ratio contacts threshold).map (fun g => g.map Prod.fst)).flatten).Nodup
    ∧ (∀ g ∈ find_duplicates_enum ratio contacts threshold, ∀ p ∈ g, p ∈ contacts.enum)
    ∧ (find_duplicates_enum ratio contacts threshold).Pairwise
        (fun g g' => ∀ p ∈ g, ∀ q ∈ g', p.1 ≠ q.1)
    ∧ find_duplicates ratio contacts threshold
        = (find_duplicates_enum ratio contacts threshold).map (fun g => g.map Prod.snd) := by
  set dupf := fun c1 c2 => are_duplicates ratio c1 c2 threshold with hdupf
  have hfilter : find_duplicates_enum ratio contacts threshold
      = (outerScanAll dupf contacts.enum []).filter (fun g => decide (1 < g.length)) := by
    rw [find_duplicates_enum, outerScan_eq_filter]
  have hflat : (((find_duplicates_enum ratio contacts threshold).map
      (fun g => g.map Prod.fst)).flatten).Nodup := by
    rw [hfilter]
    refine List.Nodup.sublist ?_ (outerScanAll_flat_nodup dupf contacts.enum [])
    exact sublist_flatten_of_sublist ((List.filter_sublist _).map _)
  refine ⟨hflat, ?_, ?_, rfl⟩
  · intro g hg p hp
    rw [hfilter] at hg
    obtain ⟨q, t, h1, h2, _, h4⟩ :=
      outerScanAll_group_shape dupf contacts.enum [] g (List.mem_of_mem_filter hg)
    subst h1
    rcases List.mem_cons.mp hp with rfl | hp'
    · exact h2
    · exact (h4 p hp').1
  · have hpw := (List.nodup_flatten.mp hflat).2
    rw [List.pairwise_map] at hpw
    refine hpw.imp ?_
    intro g g' hdisj p hpg q hqg' hpq
    exact List.disjoint_left.mp hdisj (List.mem_map.mpr ⟨p, hpg, rfl⟩)
      (hpq ▸ List.mem_map.mpr ⟨q, hqg', rfl⟩)

/-- C2: with three records in input order where the scorer accepts (A,B) and
(B,C) but rejects (A,C), the clusterer returns the single group [A, B]; C is
only ever compared against the anchor A, is rejected, and its own later
group stays a discarded singleton. -/
theorem C2_star_clustering (ratio : Ratio) (threshold : Int) (a b c : Contact)
    (hab : are_duplicates ratio a b threshold = true)
    (_hbc : are_duplicates ratio b c threshold = true)
    (hac : are_duplicates ratio a c threshold = false) :
    find_duplicates ratio [a, b, c] threshold = [[a, b]] := by
  simp [find_duplicates, find_duplicates_enum, List.enum, List.enumFrom,
    outerScan, innerScan, hab, hac]

/-- A concrete zero similarity function: the fuzzy branch never fires. -/
def zeroRatio : Ratio := fun _ _ => 0

/-- Concrete record sharing phone 1 with `contactB`. -/
def contactA : Contact := ⟨"uid-a", "", [], ["1"], ""⟩

/-- Concrete record sharing phone 1 with `contactA` and phone 2 with
`contactC`. -/
def contactB : Contact := ⟨"uid-b", "", [], ["1", "2"], ""⟩

/-- Concrete record sharing phone 2 with `contactB` only. -/
def contactC : Contact := ⟨"uid-c", "", [], ["2"], ""⟩

/-- Witness for C2 at a concrete input: the phone sets make (A,B) and (B,C)
duplicates but not (A,C). -/
theorem C2_star_clustering_witness :
    find_duplicates zeroRatio [contactA, contactB, contactC] 85
      = [[contactA, contactB]] :=
  C2_star_clustering zeroRatio 85 contactA contactB contactC
    (by decide) (by decide) (by decide)

/-- Concrete record sharing email a at x.com with `contactE` and phone 1
with `contactA`. -/
def contactD : Contact := ⟨"uid-d", "", ["a@x.com"], ["1"], ""⟩

/-- Concrete record sharing email a at x.com with `contactD` but no phone
and no name signal towards `contactA`. -/
def contactE : Contact := ⟨"uid-e", "", ["a@x.com"], ["2"], ""⟩

/-- Counterexample to C3 as stated: records D and E share a normalized
email, yet on the input [A, D, E] the clusterer groups D with the anchor A
(via a shared phone) and leaves E in no returned group, so D and E do not
end up in the same group. -/
theorem C3_counterexample :
    (contactD.emails.any (fun e => contactE.emails.contains e) = true)
    ∧ ¬ ∃ g ∈ find_duplicates zeroRatio [contactA, contactD, contactE] 85,
        contactD ∈ g ∧ contactE ∈ g := by decide

/-- C3 amended: two records sharing a normalized email are always judged
duplicates by the pairwise scorer, and when they are the whole input they do
end up in one group; on larger inputs one of them can first be absorbed into
an earlier anchor's group (see the counterexample). -/
theorem C3_email_soundness_amended (ratio : Ratio) (threshold : Int) (a b : Contact)
    (h : a.emails.any (fun e => b.emails.contains e) = true) :
    are_duplicates ratio a b threshold = true
    ∧ find_duplicates ratio [a, b] threshold = [[a, b]] := by
  obtain ⟨e, he, hc⟩ := List.any_eq_true.mp h
  have hc2 : e ∈ b.emails := by simpa using hc
  have h1 : a.emails ≠ [] := fun hh => by simp [hh] at he
  have h2 : b.emails ≠ [] := fun hh => by simp [hh] at hc2
  have hdup : are_duplicates ratio a b threshold = true := by
    rw [are_duplicates]
    simp
    exact Or.inl ⟨⟨h1, h2⟩, e, he, hc2⟩
  refine ⟨hdup, ?_⟩
  simp [find_duplicates, find_duplicates_enum, List.enum, List.enumFrom,
    outerScan, innerScan, hdup]

/-- Witness for the amended C3 at a concrete input: D and E share an email
and, as the whole input, form one group. -/
theorem C3_email_soundness_witness :
    are_duplicates zeroRatio contactD contactE 85 = true
    ∧ find_duplicates zeroRatio [contactD, contactE] 85 = [[contactD, contactE]] :=
  C3_email_soundness_amended zeroRatio 85 contactD contactE (by decide)

section SortLemmas

variable {κ α : Type} [LinearOrder κ]

/-- The stable descending sort of a nonempty list is nonempty, and its head
is the leftmost key-maximal element. -/
theorem sortDesc_head (l : List (κ × α)) : (sortDesc l).head? = maxLeft l := by
  induction l with
  | nil => rfl
  | cons x xs ih =>
    show (insertDesc x (sortDesc xs)).head? = _
    rw [maxLeft]
    cases hs : sortDesc xs with
    | nil =>
      rw [hs] at ih
      rw [← ih]
      rfl
    | cons y ys =>
      rw [hs] at ih
      rw [← ih]
      simp only [List.head?_cons]
      by_cases hle : y.1 ≤ x.1
      · rw [insertDesc, if_pos hle, List.head?_cons, if_pos hle]
      · rw [insertDesc, if_neg hle, List.head?_cons, if_neg hle]

/-- The leftmost maximum of a nonempty list exists. -/
theorem maxLeft_isSome (l : List (κ × α)) (h : l ≠ []) : ∃ m, maxLeft l = some m := by
  cases l with
  | nil => exact absurd rfl h
  | cons x xs =>
    rw [maxLeft]
    cases maxLeft xs with
    | none => exact ⟨x, rfl⟩
    | some m => exact ⟨_, rfl⟩

/-- Characterization of the leftmost maximum: it splits the list so that
everything before it has a strictly smaller key and nothing in the list has
a larger key. -/
theorem maxLeft_spec (l : List (κ × α)) (m : κ × α) (h : maxLeft l = some m) :
    ∃ pre post, l = pre ++ m :: post ∧ (∀ y ∈ pre, y.1 < m.1) ∧ ∀ y ∈ l, y.1 ≤ m.1 := by
  induction l generalizing m with
  | nil => simp [maxLeft] at h
  | cons x xs ih =>
    rw [maxLeft] at h
    cases hmx : maxLeft xs with
    | none =>
      rw [hmx] at h
      have hxs : xs = [] := by
        cases xs with
        | nil => rfl
        | cons y ys =>
          rw [maxLeft] at hmx
          cases h2 : maxLeft ys with
          | none => rw [h2] at hmx; simp at hmx
          | some m2 => rw [h2] at hmx; simp at hmx
      simp only [Option.some.injEq] at h
      subst h
      subst hxs
      refine ⟨[], [], rfl, ?_, ?_⟩
      · intro y hy
        exact absurd hy (List.not_mem_nil y)
      · intro y hy
        have hyx : y = x := by simpa using hy
        subst hyx
        exact le_refl _
    | some m2 =>
      rw [hmx] at h
      simp only [Option.some.injEq] at h
      obtain ⟨pre2, post2, hsplit, hlt2, hle2⟩ := ih m2 hmx
      by_cases hle : m2.1 ≤ x.1
      · rw [if_pos hle] at h
        subst h
        refine ⟨[], xs, rfl, by simp, ?_⟩
        intro y hy
        rcases List.mem_cons.mp hy with rfl | hy'
        · exact le_refl _
        · exact le_trans (hle2 y hy') hle
      · rw [if_neg hle] at h
        subst h
        refine ⟨x :: pre2, post2, by rw [hsplit]; rfl, ?_, ?_⟩
        · intro y hy
          rcases List.mem_cons.mp hy with rfl | hy'
          · exact lt_of_not_le hle
          · exact hlt2 y hy'
        · intro y hy
          rcases List.mem_cons.mp hy with rfl | hy'
          · exact le_of_not_le hle
          · exact hle2 y hy'

end SortLemmas

/-- C6: `choose_best_contact` on a nonempty group returns a member whose
score (two per email, two per phone, five for a present name, one per raw
line) is at least every other member's score, and which is the first member
of the group attaining that score (everything before it scores strictly
lower); for a singleton group the split forces the sole member. -/
theorem C6_survivor_dominance (duplicates : List Contact) (h : duplicates ≠ []) :
    ∃ best pre post, choose_best_contact duplicates = some best
      ∧ duplicates = pre ++ best :: post
      ∧ (∀ c ∈ pre, contactScore c < contactScore best)
      ∧ (∀ c ∈ duplicates, contactScore c ≤ contactScore best) := by
  match duplicates, h with
  | [c], _ =>
    exact ⟨c, [], [], rfl, rfl, by simp, by simp⟩
  | c1 :: c2 :: rest, _ =>
    set l := c1 :: c2 :: rest with hl
    set scored := l.map (fun c => (contactScore c, c)) with hscored
    have hne : scored ≠ [] := by simp [hscored, hl]
    obtain ⟨m, hm⟩ := maxLeft_isSome scored hne
    obtain ⟨pre2, post2, hsplit, hlt2, hle2⟩ := maxLeft_spec scored m hm
    obtain ⟨pre, rest2, hl2, hpre, hrest⟩ := List.map_eq_append_iff.mp hsplit
    obtain ⟨best, post, hrest2, hbest, hpost⟩ := List.map_eq_cons_iff.mp hrest
    have hchoose : choose_best_contact l = some m.2 := by
      show ((sortDesc scored).head?).map Prod.snd = some m.2
      rw [sortDesc_head, hm, Option.map_some']
    have hmval : m = (contactScore best, best) := hbest.symm
    refine ⟨best, pre, post, ?_, by rw [hl2, hrest2], ?_, ?_⟩
    · rw [hchoose, hmval]
    · intro c hc
      have : (contactScore c, c) ∈ pre2 := by
        rw [← hpre]
        exact List.mem_map.mpr ⟨c, hc, rfl⟩
      have := hlt2 _ this
      rwa [hmval] at this
    · intro c hc
      have : (contactScore c, c) ∈ scored := by
        exact List.mem_map.mpr ⟨c, hc, rfl⟩
      have := hle2 _ this
      rwa [hmval] at this

/-- Witness for C6 at a concrete two-member group: the second member scores
higher (two phones against one) and is elected. -/
theorem C6_survivor_dominance_witness :
    ∃ best pre post, choose_best_contact [contactA, contactB] = some best
      ∧ [contactA, contactB] = pre ++ best :: post
      ∧ (∀ c ∈ pre, contactScore c < contactScore best)
      ∧ (∀ c ∈ [contactA, contactB], contactScore c ≤ contactScore best) :=
  C6_survivor_dominance [contactA, contactB] (by simp)

/-- C8: if the lower-cased title contains any exclusion keyword the event is
classified non-birthday regardless of any other signal; otherwise it is
birthday-typed exactly when the title contains an inclusion keyword (and
non-birthday when it contains neither). -/
theorem C8_birthday_classification (event_title : String) :
    (non_birthday_keywords.any (containsKeyword (pyStrip (pyLowerL event_title.data))) = true →
      is_birthday_event event_title = false)
    ∧ (non_birthday_keywords.any (containsKeyword (pyStrip (pyLowerL event_title.data))) = false →
      is_birthday_event event_title
        = birthday_keywords.any (containsKeyword (pyStrip (pyLowerL event_title.data)))) := by
  constructor <;> intro h <;> simp [is_birthday_event, h]

/-- Witness for C8 at concrete titles: a title with both an exclusion and an
inclusion keyword is still non-birthday, a plain birthday title is
birthday-typed, and the meeting title of the specification scenario is
non-birthday. -/
theorem C8_birthday_classification_witness :
    is_birthday_event "Réunion anniversaire" = false
    ∧ is_birthday_event "Anniversaire de Jean Dupont" = true
    ∧ is_birthday_event "Réunion client" = false := by
  refine ⟨(C8_birthday_classification "Réunion anniversaire").1 (by decide), ?_,
    (C8_birthday_classification "Réunion client").1 (by decide)⟩
  rw [(C8_birthday_classification "Anniversaire de Jean Dupont").2 (by decide)]
  decide

/-- C10: the caller-supplied threshold never influences contact
deduplication — the `--type contacts` run is identical for any two threshold
values, because `remove_duplicates` calls `find_duplicates` without the
threshold argument, whose default is 85. -/
theorem C10_threshold_never_used (ratio : Ratio) (t1 t2 : Int) (calendar : Option String)
    (sync_birthdays delete : Bool) (contacts : List Contact) :
    main_api_contacts ratio ⟨"contacts", calendar, sync_birthdays, delete, t1⟩ contacts
      = main_api_contacts ratio ⟨"contacts", calendar, sync_birthdays, delete, t2⟩ contacts
    ∧ find_duplicates ratio contacts = find_duplicates ratio contacts 85 :=
  ⟨rfl, rfl⟩

/-- Counterexample to C4 as stated: the threshold 150 is outside 0 to 100,
yet the run is not rejected — clustering runs and a deletion is performed
(record A deleted, B kept, two duplicates reported). -/
theorem C4_counterexample :
    ((150 : Int) < 0 ∨ (100 : Int) < 150)
    ∧ main_api_contacts zeroRatio ⟨"contacts", none, false, true, 150⟩ [contactA, contactB]
        = .ok ((2, 1), [contactA]) :=
  ⟨by decide, by rfl⟩

/-- C4 amended: no threshold validation exists — an out-of-range threshold
is accepted and the contacts run proceeds exactly as for any other value
(the parsed threshold is never read, and clustering uses the default 85). -/
theorem C4_no_threshold_validation (ratio : Ratio) (threshold : Int) (delete : Bool)
    (contacts : List Contact) (_h : threshold < 0 ∨ 100 < threshold) :
    main_api_contacts ratio ⟨"contacts", none, false, delete, threshold⟩ contacts
      = .ok (remove_duplicates ratio contacts (!delete)) :=
  rfl

/-- Witness for the amended C4 at a concrete out-of-range threshold. -/
theorem C4_no_threshold_validation_witness :
    main_api_contacts zeroRatio ⟨"contacts", none, false, false, 101⟩ [contactA]
      = .ok (remove_duplicates zeroRatio [contactA] true) :=
  C4_no_threshold_validation zeroRatio 101 false [contactA] (by decide)

/-- C5: in dry-run mode none of the three operations performs a destructive
side effect — the returned effect lists are empty (no deletion, no
creation) and the reported deletion and creation counts are zero. -/
theorem C5_dry_run_no_effects (ratio : Ratio) (contacts : List Contact)
    (events : List Event) (entries : List (String × String)) (bevents : List Event) :
    ((remove_duplicates ratio contacts true).1.2 = 0
      ∧ (remove_duplicates ratio contacts true).2 = [])
    ∧ ((remove_event_duplicates ratio events true).1.2 = 0
      ∧ (remove_event_duplicates ratio events true).2 = [])
    ∧ ((sync_birthday_calendar ratio entries bevents true).1.2.1 = 0
      ∧ (sync_birthday_calendar ratio entries bevents true).1.2.2 = 0
      ∧ (sync_birthday_calendar ratio entries bevents true).2 = ([], [])) := by
  refine ⟨?_, ?_, ?_⟩
  · simp only [remove_duplicates]
    split_ifs <;> simp_all
  · simp only [remove_event_duplicates]
    split_ifs <;> simp_all
  · simp only [sync_birthday_calendar]
    split_ifs <;> simp_all

/-- Two distinct members of a pairwise-related list are related in one
direction or the other. -/
theorem pairwise_mem_ne {β : Type} {R : β → β → Prop} :
    ∀ (l : List β), l.Pairwise R → ∀ a ∈ l, ∀ b ∈ l, a ≠ b → R a b ∨ R b a := by
  intro l h
  induction h with
  | nil => intro a ha; simp at ha
  | @cons hd tl hhd _ ih =>
    intro a ha b hb hne
    rcases List.mem_cons.mp ha with rfl | ha2
    · rcases List.mem_cons.mp hb with rfl | hb2
      · exact absurd rfl hne
      · exact Or.inl (hhd b hb2)
    · rcases List.mem_cons.mp hb with rfl | hb2
      · exact Or.inr (hhd a ha2)
      · exact ih a ha2 b hb2 hne

/-- When the anchor matches nothing in the scanned list, the inner scan
collects nothing and leaves the processed set unchanged. -/
theorem innerScan_none {α : Type} (dup : α → α → Bool) (a : α) (l : List (Nat × α)) :
    ∀ (pr : List Nat), (∀ p ∈ l, dup a p.2 = false) →
      innerScan dup a l pr = ([], pr) := by
  induction l with
  | nil => intro pr _; rfl
  | cons hd rest ih =>
    intro pr h
    obtain ⟨j, c⟩ := hd
    by_cases hj : j ∈ pr
    · rw [innerScan, if_pos hj]
      exact ih pr (fun p hp => h p (List.mem_cons_of_mem _ hp))
    · have hc : dup a c = false := h (j, c) (List.mem_cons_self _ _)
      rw [innerScan, if_neg hj, hc]
      exact ih pr (fun p hp => h p (List.mem_cons_of_mem _ hp))

/-- When no scanned record matches any earlier one, every group stays a
singleton and the clusterer returns no group at all. -/
theorem outerScan_nil_of_pairwise {α : Type} (dup : α → α → Bool) (l : List (Nat × α)) :
    ∀ (pr : List Nat), l.Pairwise (fun p q => dup p.2 q.2 = false) →
      outerScan dup l pr = [] := by
  induction l with
  | nil => intro pr _; rfl
  | cons hd rest ih =>
    intro pr h
    obtain ⟨i, c⟩ := hd
    rw [List.pairwise_cons] at h
    by_cases hi : i ∈ pr
    · rw [outerScan, if_pos hi]
      exact ih pr h.2
    · rw [outerScan, if_neg hi, innerScan_none dup c rest (i :: pr) (fun p hp => h.1 p hp)]
      simp only [List.length_cons, List.length_nil]
      rw [if_neg (by omega)]
      exact ih (i :: pr) h.2

/-- A pairwise relation on a list transfers to its index-tagged version. -/
theorem pairwise_enum_of_pairwise {α : Type} {R : α → α → Prop} (l : List α)
    (h : l.Pairwise R) : l.enum.Pairwise (fun p q => R p.2 q.2) :=
  List.pairwise_map.mp (by rw [List.enum_map_snd]; exact h)

/-- A contact is deleted by a real `remove_duplicates` run exactly when it
belongs to some returned group without being that group's elected best. -/
theorem remove_duplicates_deleted_mem (ratio : Ratio) (l : List Contact) (c : Contact) :
    c ∈ (remove_duplicates ratio l false).2 ↔
      ∃ g ∈ find_duplicates ratio l 85, c ∈ g ∧ choose_best_contact g ≠ some c := by
  simp only [remove_duplicates]
  split_ifs with h1 h2 h3
  · have hl : l = [] := by simpa [List.isEmpty_iff] using h1
    subst hl
    simp [find_duplicates, find_duplicates_enum, outerScan, List.enum, List.enumFrom]
  · have hg : find_duplicates ratio l 85 = [] := by simpa [List.isEmpty_iff] using h2
    simp [hg]
  · exact h3.elim
  · simp [List.mem_flatMap, List.mem_filter]

/-- A contact survives the deduplication run exactly when it is an input
record that is the elected best of every returned group containing it. -/
theorem applyDedup_mem (ratio : Ratio) (l : List Contact) (c : Contact) :
    c ∈ applyDedup ratio l ↔
      c ∈ l ∧ ∀ g ∈ find_duplicates ratio l 85, c ∈ g → choose_best_contact g = some c := by
  rw [applyDedup, List.mem_filter]
  constructor
  · rintro ⟨h1, h2⟩
    refine ⟨h1, ?_⟩
    intro g hg hcg
    by_contra hne
    have hdel : c ∈ (remove_duplicates ratio l false).2 :=
      (remove_duplicates_deleted_mem ratio l c).mpr ⟨g, hg, hcg, hne⟩
    rw [Bool.not_eq_true', ← Bool.not_eq_true] at h2
    exact h2 (List.elem_iff.mpr hdel)
  · rintro ⟨h1, h2⟩
    refine ⟨h1, ?_⟩
    rw [Bool.not_eq_true', ← Bool.not_eq_true]
    intro hcon
    obtain ⟨g, hg, hcg, hne⟩ :=
      (remove_duplicates_deleted_mem ratio l c).mp (List.elem_iff.mp hcon)
    exact hne (h2 g hg hcg)

/-- Core of the amended idempotence claim: when the pairwise test is
symmetric and transitive on the input, two distinct records that both
survive the deletion plan of a clustering run (each is the selected member
of every returned group containing it) are never duplicates — the anchors of
their groups were compared directly by the run and rejected. -/
theorem star_rerun_pairwise {α : Type} (dup : α → α → Bool) (sel : List α → Option α)
    (l : List α)
    (hsym : ∀ x ∈ l, ∀ y ∈ l, dup x y = dup y x)
    (htrans : ∀ x ∈ l, ∀ y ∈ l, ∀ z ∈ l, dup x y = true → dup y z = true →
      dup x z = true)
    (x y : α) (hx : x ∈ l) (hy : y ∈ l) (hxy : x ≠ y)
    (hkx : ∀ g ∈ (outerScan dup l.enum []).map (fun g => g.map Prod.snd),
      x ∈ g → sel g = some x)
    (hky : ∀ g ∈ (outerScan dup l.enum []).map (fun g => g.map Prod.snd),
      y ∈ g → sel g = some y) :
    dup x y = false := by
  by_contra hdup0
  have hdup : dup x y = true := by
    cases hd : dup x y
    · exact absurd hd hdup0
    · rfl
  have hilnd : (l.enum.map Prod.fst).Nodup := by
    rw [List.enum_map_fst]; exact List.nodup_range _
  obtain ⟨ix, hix⟩ := List.mem_iff_getElem?.mp hx
  obtain ⟨iy, hiy⟩ := List.mem_iff_getElem?.mp hy
  have hxe : (ix, x) ∈ l.enum := List.mem_enum_iff_getElem?.mpr hix
  have hye : (iy, y) ∈ l.enum := List.mem_enum_iff_getElem?.mpr hiy
  obtain ⟨gx, hgx, hxgx⟩ :=
    outerScanAll_cover dup l.enum [] hilnd (ix, x) hxe (List.not_mem_nil _)
  obtain ⟨gy, hgy, hygy⟩ :=
    outerScanAll_cover dup l.enum [] hilnd (iy, y) hye (List.not_mem_nil _)
  by_cases hgeq : gx = gy
  · subst hgeq
    have hpairne : ((ix, x) : Nat × α) ≠ (iy, y) := fun h => hxy (congrArg Prod.snd h)
    have hlen : 1 < gx.length := by
      cases gx with
      | nil => simp at hxgx
      | cons p rest =>
        cases rest with
        | nil =>
          have e1 : (ix, x) = p := by simpa using hxgx
          have e2 : (iy, y) = p := by simpa using hygy
          exact absurd (e1.trans e2.symm) hpairne
        | cons q rest2 => simp only [List.length_cons]; omega
    have hgxScan : gx ∈ outerScan dup l.enum [] := by
      rw [outerScan_eq_filter]
      exact List.mem_filter.mpr ⟨hgx, decide_eq_true hlen⟩
    have hGmem : gx.map Prod.snd
        ∈ (outerScan dup l.enum []).map (fun g => g.map Prod.snd) :=
      List.mem_map_of_mem _ hgxScan
    have hxG : x ∈ gx.map Prod.snd := List.mem_map_of_mem Prod.snd hxgx
    have hyG : y ∈ gx.map Prod.snd := List.mem_map_of_mem Prod.snd hygy
    have e1 := hkx _ hGmem hxG
    have e2 := hky _ hGmem hyG
    exact hxy (Option.some.inj (e1.symm.trans e2))
  · obtain ⟨ax, tx, hgxeq, haxl, _, htx⟩ := outerScanAll_group_shape dup l.enum [] gx hgx
    obtain ⟨ay, ty, hgyeq, hayl, _, hty⟩ := outerScanAll_group_shape dup l.enum [] gy hgy
    have haxl2 : ax.2 ∈ l := by
      have := List.mem_map_of_mem Prod.snd haxl
      rwa [List.enum_map_snd] at this
    have hayl2 : ay.2 ∈ l := by
      have := List.mem_map_of_mem Prod.snd hayl
      rwa [List.enum_map_snd] at this
    have hxlink : ax.2 = x ∨ dup ax.2 x = true := by
      rw [hgxeq] at hxgx
      rcases List.mem_cons.mp hxgx with heq | hmem
      · exact Or.inl (congrArg Prod.snd heq).symm
      · exact Or.inr (htx _ hmem).2.2
    have hylink : ay.2 = y ∨ dup ay.2 y = true := by
      rw [hgyeq] at hygy
      rcases List.mem_cons.mp hygy with heq | hmem
      · exact Or.inl (congrArg Prod.snd heq).symm
      · exact Or.inr (hty _ hmem).2.2
    have hchain1 : dup ax.2 y = true := by
      rcases hxlink with heq | hd
      · rw [heq]; exact hdup
      · exact htrans ax.2 haxl2 x hx y hy hd hdup
    have hchain : dup ax.2 ay.2 = true := by
      rcases hylink with heq | hd
      · rw [heq]; exact hchain1
      · have hsy : dup y ay.2 = true := by
          rw [hsym y hy ay.2 hayl2]; exact hd
        exact htrans ax.2 haxl2 y hy ay.2 hayl2 hchain1 hsy
    have haxhead : gx.head? = some ax := by rw [hgxeq]; rfl
    have hayhead : gy.head? = some ay := by rw [hgyeq]; rfl
    have hpw := outerScanAll_anchors_pairwise dup l.enum ([] : List Nat)
    rcases pairwise_mem_ne _ hpw gx hgx gy hgy hgeq with hR | hR
    · have hfalse := hR ax ay haxhead hayhead
      rw [hfalse] at hchain
      exact Bool.false_ne_true hchain
    · have hfalse := hR ay ax hayhead haxhead
      rw [hsym ax.2 haxl2 ay.2 hayl2, hfalse] at hchain
      exact Bool.false_ne_true hchain

/-- Counterexample to C7 as stated: on [A, B, C] (phones 1, 1 and 2, 2) the
run groups A with B, elects B (higher score) and deletes A; re-running on
the remaining records [B, C] finds the new group [B, C] — deduplication with
star clustering is not idempotent. -/
theorem C7_counterexample :
    applyDedup zeroRatio [contactA, contactB, contactC] = [contactB, contactC]
    ∧ find_duplicates zeroRatio [contactB, contactC] 85 = [[contactB, contactC]] := by
  decide

/-- C7 amended: re-running deduplication on the post-deletion record set
yields zero groups provided the pairwise duplicate judgment is symmetric and
transitive on the input records (the failure exhibited by the counterexample
needs a non-transitive judgment, which star clustering does not close). -/
theorem C7_idempotence_amended (ratio : Ratio) (contacts : List Contact)
    (hnd : contacts.Nodup)
    (hsym : ∀ x ∈ contacts, ∀ y ∈ contacts,
      are_duplicates ratio x y 85 = are_duplicates ratio y x 85)
    (htrans : ∀ x ∈ contacts, ∀ y ∈ contacts, ∀ z ∈ contacts,
      are_duplicates ratio x y 85 = true → are_duplicates ratio y z 85 = true →
        are_duplicates ratio x z 85 = true) :
    find_duplicates ratio (applyDedup ratio contacts) 85 = [] := by
  have hfd : ∀ m : List Contact, find_duplicates ratio m 85
      = (outerScan (fun c1 c2 => are_duplicates ratio c1 c2 85) m.enum []).map
          (fun g => g.map Prod.snd) := fun m => rfl
  have hsubnd : (applyDedup ratio contacts).Nodup := by
    rw [applyDedup]
    exact hnd.filter _
  have hK : ∀ x ∈ applyDedup ratio contacts, ∀ y ∈ applyDedup ratio contacts,
      x ≠ y → are_duplicates ratio x y 85 = false := by
    intro x hxr y hyr hxy
    obtain ⟨hx, hkeepx⟩ := (applyDedup_mem ratio contacts x).mp hxr
    obtain ⟨hy, hkeepy⟩ := (applyDedup_mem ratio contacts y).mp hyr
    refine star_rerun_pairwise (fun c1 c2 => are_duplicates ratio c1 c2 85)
      choose_best_contact contacts hsym htrans x y hx hy hxy ?_ ?_
    · intro g hg hxg
      refine hkeepx g ?_ hxg
      rw [hfd contacts]
      exact hg
    · intro g hg hyg
      refine hkeepy g ?_ hyg
      rw [hfd contacts]
      exact hg
  have hpw : (applyDedup ratio contacts).Pairwise
      (fun a b => are_duplicates ratio a b 85 = false) := by
    have hne : (applyDedup ratio contacts).Pairwise (fun a b => a ≠ b) := hsubnd
    exact List.Pairwise.imp_of_mem (fun ha hb hab => hK _ ha _ hb hab) hne
  rw [hfd]
  rw [outerScan_nil_of_pairwise _ _ _ (pairwise_enum_of_pairwise _ hpw)]
  rfl

/-- Witness for the amended C7: two records sharing only an email (the
pairwise test is symmetric and transitive there); the run deletes one of
them and the re-run finds nothing. -/
theorem C7_idempotence_witness :
    find_duplicates zeroRatio
      (applyDedup zeroRatio
        [⟨"uid-f", "", ["z@z.z"], [], ""⟩, ⟨"uid-g", "", ["z@z.z"], [], ""⟩]) 85 = [] :=
  C7_idempotence_amended zeroRatio
    [⟨"uid-f", "", ["z@z.z"], [], ""⟩, ⟨"uid-g", "", ["z@z.z"], [], ""⟩]
    (by decide) (by decide) (by decide)

/-- Any-search through a mapped list applies the predicate to the image. -/
theorem any_map_general {β γ : Type} (f : β → γ) (p : γ → Bool) :
    ∀ l : List β, (l.map f).any p = l.any (fun b => p (f b)) := by
  intro l
  induction l with
  | nil => rfl
  | cons a t ih => simp [ih]

/-- When no two entries share a lower-cased name, the dictionary built by
the matcher is exactly the entry list keyed by lower-cased name. -/
theorem contactsDict_append (entries : List (String × String)) :
    ∀ (acc : List (String × String × String)),
      (∀ nd ∈ entries, ∀ kv ∈ acc, pyLower nd.1 ≠ kv.1) →
      (entries.map (fun nd => pyLower nd.1)).Nodup →
      entries.foldl (fun acc nd =>
        let key := pyLower nd.1
        if acc.any (fun kv => kv.1 == key) then
          acc.map (fun kv => if kv.1 == key then (key, nd.1, nd.2) else kv)
        else acc ++ [(key, nd.1, nd.2)]) acc
      = acc ++ entries.map (fun nd => (pyLower nd.1, nd.1, nd.2)) := by
  induction entries with
  | nil => intro acc _ _; simp
  | cons nd rest ih =>
    intro acc hdisj hnd
    simp only [List.foldl_cons]
    have hany : (acc.any (fun kv => kv.1 == pyLower nd.1)) = false := by
      rw [List.any_eq_false]
      intro kv hkv
      simp only [beq_iff_eq]
      exact fun h => hdisj nd (List.mem_cons_self _ _) kv hkv h.symm
    simp only [List.map_cons, List.nodup_cons] at hnd
    have hstep : (let key := pyLower nd.1
        if acc.any (fun kv => kv.1 == key) then
          acc.map (fun kv => if kv.1 == key then (key, nd.1, nd.2) else kv)
        else acc ++ [(key, nd.1, nd.2)]) = acc ++ [(pyLower nd.1, nd.1, nd.2)] := by
      simp only [hany]
      rfl
    rw [hstep]
    rw [ih (acc ++ [(pyLower nd.1, nd.1, nd.2)]) ?_ hnd.2]
    · simp
    · intro nd2 hnd2 kv hkv
      rcases List.mem_append.mp hkv with hkv1 | hkv2
      · exact hdisj nd2 (List.mem_cons_of_mem _ hnd2) kv hkv1
      · have : kv = (pyLower nd.1, nd.1, nd.2) := by simpa using hkv2
        subst this
        intro h
        have h2 : pyLower nd2.1 = pyLower nd.1 := h
        exact hnd.1 (h2 ▸ List.mem_map.mpr ⟨nd2, hnd2, rfl⟩)

/-- Instantiation of `contactsDict_append` at the empty accumulator. -/
theorem contactsDict_of_nodup (entries : List (String × String))
    (h : (entries.map (fun nd => pyLower nd.1)).Nodup) :
    contactsDict entries = entries.map (fun nd => (pyLower nd.1, nd.1, nd.2)) := by
  rw [contactsDict]
  have := contactsDict_append entries [] (by simp) h
  simpa using this

/-- C9 amended: provided no two entries share a lower-cased name, a
birthday-typed event is placed in the matched bucket exactly when some entry
passes the match test — name comparison (substring either way or fuzzy at
least 80) and the date gate (equal MM-DD, or no extractable event date) —
and in the orphan bucket exactly when no entry passes it. -/
theorem C9_birthday_matching (ratio : Ratio) (entries : List (String × String))
    (events : List Event) (e : Event)
    (hnd : (entries.map (fun nd => pyLower nd.1)).Nodup)
    (he : e ∈ events) (hb : is_birthday_event e.title = true) :
    (e ∈ (match_birthdays_and_events ratio entries events).1 ↔
      ∃ nd ∈ entries, entryMatches ratio e.start_date (event_candidate_name e)
        (pyLower nd.1, nd.1, nd.2) = true)
    ∧ (e ∈ (match_birthdays_and_events ratio entries events).2.1 ↔
      ¬ ∃ nd ∈ entries, entryMatches ratio e.start_date (event_candidate_name e)
        (pyLower nd.1, nd.1, nd.2) = true) := by
  have hdict := contactsDict_of_nodup entries hnd
  have hiff : event_is_matched ratio (contactsDict entries) e = true ↔
      ∃ nd ∈ entries, entryMatches ratio e.start_date (event_candidate_name e)
        (pyLower nd.1, nd.1, nd.2) = true := by
    rw [event_is_matched, hdict, any_map_general, List.any_eq_true]
  constructor
  · simp only [match_birthdays_and_events, List.mem_filter, he, hb, true_and, and_true]
    exact hiff
  · simp only [match_birthdays_and_events, List.mem_filter, he, hb, true_and, and_true,
      Bool.not_eq_true']
    rw [← hiff]
    simp

/-- Concrete birthday event matching the entry Jean Dupont with day key
05-12. -/
def birthdayEvent : Event :=
  ⟨"uid-ev", "Anniversaire de Jean Dupont", "", some (.str "2024-05-12"), "", none⟩

/-- Witness for the amended C9 at a concrete input: the single entry list
satisfies the distinct-key hypothesis and the event is matched exactly when
the entry passes the test. -/
theorem C9_birthday_matching_witness :
    (birthdayEvent ∈ (match_birthdays_and_events zeroRatio
        [("Jean Dupont", "05-12")] [birthdayEvent]).1 ↔
      ∃ nd ∈ [("Jean Dupont", "05-12")],
        entryMatches zeroRatio birthdayEvent.start_date
          (event_candidate_name birthdayEvent) (pyLower nd.1, nd.1, nd.2) = true)
    ∧ (birthdayEvent ∈ (match_birthdays_and_events zeroRatio
        [("Jean Dupont", "05-12")] [birthdayEvent]).2.1 ↔
      ¬ ∃ nd ∈ [("Jean Dupont", "05-12")],
        entryMatches zeroRatio birthdayEvent.start_date
          (event_candidate_name birthdayEvent) (pyLower nd.1, nd.1, nd.2) = true) :=
  C9_birthday_matching zeroRatio [("Jean Dupont", "05-12")] [birthdayEvent] birthdayEvent
    (by decide) (by decide) (by decide)

/-- Concrete birthday event whose title names Jean and whose date is the
May 12 one of the first entry below. -/
def shadowEvent : Event :=
  ⟨"uid-sh", "Anniversaire de Jean", "", some (.str "2024-05-12"), "", none⟩

/-- Counterexample to C9 as stated: with the two entries (Jean, 05-12) and
(JEAN, 06-13) sharing the lower-cased name jean, the first entry passes the
match test for the event (name and date both agree), so the claim classifies
the event Matched; the code collapses the entries into one dictionary slot
whose date is the later entry's 06-13, and classifies the event
OrphanEvent. -/
theorem C9_counterexample :
    (∃ nd ∈ [("Jean", "05-12"), ("JEAN", "06-13")],
      entryMatches zeroRatio shadowEvent.start_date
        (event_candidate_name shadowEvent) (pyLower nd.1, nd.1, nd.2) = true)
    ∧ is_birthday_event shadowEvent.title = true
    ∧ shadowEvent ∉ (match_birthdays_and_events zeroRatio
        [("Jean", "05-12"), ("JEAN", "06-13")] [shadowEvent]).1
    ∧ shadowEvent ∈ (match_birthdays_and_events zeroRatio
        [("Jean", "05-12"), ("JEAN", "06-13")] [shadowEvent]).2.1 := by
  decide
